import Mathlib

/-!
Verification of the comment-line scanner in `src/main.go`
(`hphucnp/slasify_golang_exercise`).

The repository's core is `analyzeFile`: a hand-rolled per-character state
machine that classifies each line of a source file by comment/string state
and accumulates `FileStats`.  We embed it shallowly:

* Go byte strings are modelled as `List Char` (all markers and all inputs
  considered here are ASCII, where Go's byte-level `strings.HasPrefix` and
  indexing coincide with character-level operations);
* the per-line `for i < len(line)` loop of `analyzeFile`
  (`src/main.go:186-262`) becomes a step function `scanStep` plus a
  fuel-indexed loop `scanLoop` (fuel `line.length + 1` is shown sufficient
  for the built-in C/C++ spec);
* the per-file loop over `scanner.Scan()` (`src/main.go:165-263`) becomes
  `scanLines`; `analyzeFile` takes the already-split list of
  newline-delimited lines (the `bufio.Scanner` splitting and file I/O are
  outside the scanner proper);
* Go `int` counters, which are only ever incremented here, are modelled
  as `Nat`.
-/

/-- `FileStats` from `src/main.go:12-16`. -/
structure FileStats where
  TotalLines : Nat
  InlineComments : Nat
  BlockComments : Nat
deriving Repr, DecidableEq

/-- `LanguageSpec` from `src/main.go:18-27`.  The fields
`specialCharsToEscape` and `fileExtensions` are never read by
`analyzeFile`, so they are omitted from the scanner's view of the spec. -/
structure LanguageSpec where
  inlineCommentStart : List Char
  blockCommentStart : List Char
  blockCommentEnd : List Char
  lineContinuation : List Char
  escapeCharacter : List Char
  stringDelimiter : List (List Char)
deriving Repr

/-- Double quote `"` (ASCII 34), written via `Char.ofNat` to keep the
source file free of quote characters inside char literals. -/
def dquot : Char := Char.ofNat 34

/-- Single quote (ASCII 39). -/
def squot : Char := Char.ofNat 39

/-- Backslash (ASCII 92). -/
def bslash : Char := Char.ofNat 92

/-- The built-in `"C/C++"` entry of `languageSpecs`, `src/main.go:29-41`. -/
def cppSpec : LanguageSpec where
  inlineCommentStart := ['/', '/']
  blockCommentStart := ['/', '*']
  blockCommentEnd := ['*', '/']
  lineContinuation := [bslash]
  escapeCharacter := [bslash]
  stringDelimiter := [[dquot], [squot]]

/-- The scanner state carried across lines of one file:
`isInBlockComment`, `isInInlineComment`, `isInString`,
`currentStringDelimiter` from `src/main.go:159-162`. -/
structure ScanState where
  isInBlockComment : Bool
  isInInlineComment : Bool
  isInString : Bool
  currentStringDelimiter : List Char
deriving Repr, DecidableEq

/-- The all-false state the scan of each file starts from
(`src/main.go:159-162`). -/
def initState : ScanState where
  isInBlockComment := false
  isInInlineComment := false
  isInString := false
  currentStringDelimiter := []

/-- State local to the scan of one line: the carried `ScanState`, the
accumulated `FileStats`, and the per-line flag
`isCountedAsBlockCommment` (`src/main.go:169`). -/
structure LineScan where
  st : ScanState
  stat : FileStats
  counted : Bool
deriving Repr, DecidableEq

/-- Outcome of one iteration of the character-cursor loop: either the
loop continues at a new cursor (`continue` / falling to `i++` in the Go
loop body), or it stops scanning the line (`break`). -/
inductive StepOut where
  | cont (ls : LineScan) (i : Nat)
  | stop (ls : LineScan)
deriving Repr, DecidableEq

/-- One iteration of the body of `for i < len(line)`
(`src/main.go:186-262`), at cursor `i`.  Branches appear in source
order:

1. inside a string: closing-delimiter check, then escape check, each
   continuing the loop; otherwise fall through (`src/main.go:187-201`);
2. inside a block comment: count the line once via the `counted` flag,
   then the end-marker check (`src/main.go:203-214`);
3. inline-comment carry-over: count, close unless `lineContinued`, and
   break (`src/main.go:216-223`);
4. string start: the first delimiter in `stringDelimiter` matching at
   the cursor, guarded by no construct being open (`src/main.go:226-238`);
5. block-comment start (`src/main.go:240-248`);
6. inline-comment start: in the source it sets `isInInlineComment = true`
   and immediately clears it unless `lineContinued`, i.e. the carried
   value is exactly `lineContinued` (`src/main.go:251-258`);
7. otherwise `i++` (`src/main.go:261`).

To keep the proofs compositional the body is split into named phases,
each mapping to a contiguous region of the Go loop body:
`stringPhase` (1), `blockCountOnce` (the counting half of 2),
`startPhase` (4-7); `scanStep` glues them in source order. -/
def stringPhase (spec : LanguageSpec) (line : List Char) (ls : LineScan)
    (i : Nat) : Option StepOut :=
  if ls.st.isInString && ls.st.currentStringDelimiter.isPrefixOf (line.drop i) then
    some (.cont { ls with st := { ls.st with isInString := false, currentStringDelimiter := [] } }
      (i + ls.st.currentStringDelimiter.length))
  else if ls.st.isInString && spec.escapeCharacter.isPrefixOf (line.drop i) then
    some (.cont ls (i + 2))
  else none

/-- The `if isInBlockComment { if !isCountedAsBlockCommment { ... } }`
counting at `src/main.go:203-207`. -/
def blockCountOnce (ls : LineScan) : LineScan :=
  if ls.st.isInBlockComment && !ls.counted then
    { ls with
        stat := { ls.stat with BlockComments := ls.stat.BlockComments + 1 }
        counted := true }
  else ls

/-- The string-start scan over `stringDelimiter`, `src/main.go:226-238`:
the first delimiter of the spec matching at the cursor, provided no
construct is open (the loop's guard conditions do not change while it
runs, so Go's first-match break is `List.find?`). -/
def stringHit (spec : LanguageSpec) (line : List Char) (ls1 : LineScan)
    (i : Nat) : Option (List Char) :=
  if !ls1.st.isInBlockComment && !ls1.st.isInInlineComment && !ls1.st.isInString then
    spec.stringDelimiter.find? (fun d => d.isPrefixOf (line.drop i))
  else none

/-- The construct-start checks and default cursor advance,
`src/main.go:226-261`, reached with `ls1 = blockCountOnce ls` when
neither the block-comment-end branch nor the inline carry-over fired. -/
def startPhase (spec : LanguageSpec) (lineContinued : Bool) (line : List Char)
    (ls1 : LineScan) (i : Nat) : StepOut :=
  match stringHit spec line ls1 i with
  | some d =>
      .cont { ls1 with st := { ls1.st with isInString := true, currentStringDelimiter := d } }
        (i + d.length)
  | none =>
    if spec.blockCommentStart.isPrefixOf (line.drop i)
        && !ls1.st.isInString && !ls1.st.isInBlockComment && !ls1.st.isInInlineComment then
      let ls2 : LineScan := { ls1 with st := { ls1.st with isInBlockComment := true } }
      let ls3 : LineScan :=
        if !ls2.counted then
          { ls2 with
              stat := { ls2.stat with BlockComments := ls2.stat.BlockComments + 1 }
              counted := true }
        else ls2
      .cont ls3 (i + spec.blockCommentStart.length)
    else if spec.inlineCommentStart.isPrefixOf (line.drop i)
        && !ls1.st.isInString && !ls1.st.isInBlockComment then
      .stop { ls1 with
                stat := { ls1.stat with InlineComments := ls1.stat.InlineComments + 1 }
                st := { ls1.st with isInInlineComment := lineContinued } }
    else
      .cont ls1 (i + 1)

/-- One full iteration of the loop body, `src/main.go:186-262`. -/
def scanStep (spec : LanguageSpec) (lineContinued : Bool) (line : List Char)
    (ls : LineScan) (i : Nat) : StepOut :=
  match stringPhase spec line ls i with
  | some r => r
  | none =>
    let ls1 : LineScan := blockCountOnce ls
    if ls1.st.isInBlockComment && spec.blockCommentEnd.isPrefixOf (line.drop i) then
      .cont { ls1 with st := { ls1.st with isInBlockComment := false } }
        (i + spec.blockCommentEnd.length)
    else if ls1.st.isInInlineComment then
      .stop { ls1 with
                stat := { ls1.stat with InlineComments := ls1.stat.InlineComments + 1 }
                st := { ls1.st with isInInlineComment := lineContinued } }
    else
      startPhase spec lineContinued line ls1 i

/-- The character-cursor loop `for i < len(line)` (`src/main.go:186-262`),
indexed by fuel.  For the built-in C/C++ spec every `cont` step strictly
increases the cursor, so fuel `line.length + 1` always suffices (proved
below); on fuel exhaustion the current state is returned, which by that
sufficiency is never reached from `scanLine`. -/
def scanLoop (spec : LanguageSpec) (lineContinued : Bool) (line : List Char) :
    Nat → LineScan → Nat → LineScan
  | 0, ls, _ => ls
  | fuel + 1, ls, i =>
    if i < line.length then
      match scanStep spec lineContinued line ls i with
      | .cont ls' i' => scanLoop spec lineContinued line fuel ls' i'
      | .stop ls' => ls'
    else ls

/-- `lineContinued` (`src/main.go:170-173`): the last byte of a
non-empty line equals the first byte of `lineContinuation`; `false` for
the empty line. -/
def lineContinuedF (spec : LanguageSpec) (line : List Char) : Bool :=
  match line.getLast?, spec.lineContinuation.head? with
  | some c, some d => c == d
  | _, _ => false

/-- The body of `for scanner.Scan()` for one line (`src/main.go:165-262`):
increment `TotalLines`, compute `lineContinued`, handle the empty-line
special case (`src/main.go:176-185`), otherwise run the character loop
from cursor 0 with the per-line `counted` flag reset. -/
def scanLine (spec : LanguageSpec) (st : ScanState) (stat : FileStats)
    (line : List Char) : ScanState × FileStats :=
  let stat1 : FileStats := { stat with TotalLines := stat.TotalLines + 1 }
  let lineContinued : Bool := lineContinuedF spec line
  match line with
  | [] =>
    let p1 : ScanState × FileStats :=
      if st.isInInlineComment then
        ({ st with isInInlineComment := false },
         { stat1 with InlineComments := stat1.InlineComments + 1 })
      else (st, stat1)
    let p2 : ScanState × FileStats :=
      if p1.1.isInBlockComment then
        (p1.1, { p1.2 with BlockComments := p1.2.BlockComments + 1 })
      else p1
    p2
  | _ :: _ =>
    let ls := scanLoop spec lineContinued line (line.length + 1)
      { st := st, stat := stat1, counted := false } 0
    (ls.st, ls.stat)

/-- The loop over `scanner.Scan()` (`src/main.go:165-263`), threading the
`ScanState` and `FileStats` through successive lines. -/
def scanLines (spec : LanguageSpec) (st : ScanState) (stat : FileStats) :
    List (List Char) → ScanState × FileStats
  | [] => (st, stat)
  | l :: rest =>
    let p := scanLine spec st stat l
    scanLines spec p.1 p.2 rest

/-- `analyzeFile` (`src/main.go:151-270`) restricted to its scanning core:
fresh state and zeroed stats, scan every line, return the stats.  The
caller passes the file's newline-delimited lines. -/
def analyzeFile (spec : LanguageSpec) (lines : List (List Char)) : FileStats :=
  (scanLines spec initState { TotalLines := 0, InlineComments := 0, BlockComments := 0 } lines).2

example :
    analyzeFile cppSpec
      [('x' :: ' ' :: '=' :: ' ' :: dquot :: ('/' :: '/' :: ' ' :: "not a comment".toList))
        ++ [dquot, ';']] =
    { TotalLines := 1, InlineComments := 0, BlockComments := 0 } := by decide

example :
    analyzeFile cppSpec
      ["int x; // note".toList, ('/' :: '*' :: " block".toList),
       ("spanning ".toList ++ ['*', '/']), "int y;".toList] =
    { TotalLines := 4, InlineComments := 1, BlockComments := 2 } := by decide

/-- The `LineScan` carried by a `StepOut`, whether the loop continues or
stops. -/
def StepOut.out : StepOut → LineScan
  | .cont ls _ => ls
  | .stop ls => ls

/-- At most one of the three construct flags is set. -/
def atMostOne (st : ScanState) : Prop :=
  ¬(st.isInBlockComment = true ∧ st.isInInlineComment = true) ∧
  ¬(st.isInBlockComment = true ∧ st.isInString = true) ∧
  ¬(st.isInInlineComment = true ∧ st.isInString = true)

/-- Well-formed scanner states: at most one construct open, and an open
string's delimiter is one of the spec's string delimiters. -/
def WF (spec : LanguageSpec) (st : ScanState) : Prop :=
  atMostOne st ∧
  (st.isInString = true → st.currentStringDelimiter ∈ spec.stringDelimiter)

instance (st : ScanState) : Decidable (atMostOne st) := by
  unfold atMostOne; infer_instance

instance (spec : LanguageSpec) (st : ScanState) : Decidable (WF spec st) := by
  unfold WF; infer_instance

theorem initState_wf (spec : LanguageSpec) : WF spec initState := by
  constructor
  · exact ⟨by simp [initState], by simp [initState], by simp [initState]⟩
  · intro h; simp [initState] at h

/-- When the in-string branch fires it continues the loop with the stats
and the per-line flag untouched, and only the string fields of the state
possibly changed; it presupposes an open string. -/
theorem stringPhase_out (spec : LanguageSpec) (line : List Char)
    (ls : LineScan) (i : Nat) (r : StepOut)
    (h : stringPhase spec line ls i = some r) :
    r.out.stat = ls.stat ∧ r.out.counted = ls.counted ∧
    r.out.st.isInBlockComment = ls.st.isInBlockComment ∧
    r.out.st.isInInlineComment = ls.st.isInInlineComment ∧
    ls.st.isInString = true ∧ (∃ ls' i', r = .cont ls' i') := by
  unfold stringPhase at h
  split_ifs at h with h1 h2
  · injection h with h; subst h
    simp_all [StepOut.out]
  · injection h with h; subst h
    simp_all [StepOut.out]

/-- The in-string branch preserves well-formedness. -/
theorem stringPhase_wf (spec : LanguageSpec) (line : List Char)
    (ls : LineScan) (i : Nat) (r : StepOut)
    (hwf : WF spec ls.st) (h : stringPhase spec line ls i = some r) :
    WF spec r.out.st := by
  unfold stringPhase at h
  split_ifs at h with h1 h2
  · injection h with h; subst h
    obtain ⟨⟨a1, a2, a3⟩, hd⟩ := hwf
    exact ⟨⟨by simp_all [StepOut.out], by simp [StepOut.out],
      by simp [StepOut.out]⟩, by simp [StepOut.out]⟩
  · injection h with h; subst h
    exact hwf

/-- The in-string branch, when it fires under the built-in C/C++ spec on
a well-delimited state, strictly advances the cursor. -/
theorem stringPhase_progress (line : List Char) (ls : LineScan) (i : Nat)
    (ls' : LineScan) (i' : Nat)
    (hd : ls.st.isInString = true →
      ls.st.currentStringDelimiter ∈ cppSpec.stringDelimiter)
    (h : stringPhase cppSpec line ls i = some (.cont ls' i')) :
    i < i' := by
  unfold stringPhase at h
  split_ifs at h with h1 h2
  · have hs : ls.st.isInString = true := (Bool.and_eq_true_iff.mp h1).1
    have hmem := hd hs
    simp only [cppSpec, List.mem_cons, List.not_mem_nil, or_false] at hmem
    have hlen : ls.st.currentStringDelimiter.length = 1 := by
      rcases hmem with h' | h' <;> simp [h']
    injection h with h
    injection h with e1 e2
    omega
  · injection h with h
    injection h with e1 e2
    omega

/-- `blockCountOnce` never changes the scanner state proper. -/
theorem blockCountOnce_st (ls : LineScan) : (blockCountOnce ls).st = ls.st := by
  unfold blockCountOnce; split_ifs <;> rfl

/-- `blockCountOnce` never touches `TotalLines` or `InlineComments`. -/
theorem blockCountOnce_stat (ls : LineScan) :
    (blockCountOnce ls).stat.TotalLines = ls.stat.TotalLines ∧
    (blockCountOnce ls).stat.InlineComments = ls.stat.InlineComments := by
  unfold blockCountOnce; split_ifs <;> exact ⟨rfl, rfl⟩

/-- `blockCountOnce` accounting: an already-counted line stays counted
with `BlockComments` unchanged; an uncounted line either stays uncounted
and unchanged, or is counted exactly once. -/
theorem blockCountOnce_block (ls : LineScan) :
    (ls.counted = true → (blockCountOnce ls).counted = true ∧
      (blockCountOnce ls).stat.BlockComments = ls.stat.BlockComments) ∧
    (ls.counted = false →
      ((blockCountOnce ls).counted = false ∧
        (blockCountOnce ls).stat.BlockComments = ls.stat.BlockComments) ∨
      ((blockCountOnce ls).counted = true ∧
        (blockCountOnce ls).stat.BlockComments = ls.stat.BlockComments + 1)) := by
  unfold blockCountOnce
  split_ifs with h <;> constructor <;> intro hc <;> simp_all

/-- After `blockCountOnce`, a line inside a block comment is marked
counted. -/
theorem blockCountOnce_marks (ls : LineScan) :
    (blockCountOnce ls).st.isInBlockComment = true →
    (blockCountOnce ls).counted = true := by
  unfold blockCountOnce
  split_ifs with h <;> intro hb <;> simp_all

/-- A string hit only arises with no construct open, and the delimiter
found is one of the spec's. -/
theorem stringHit_mem (spec : LanguageSpec) (line : List Char)
    (ls1 : LineScan) (i : Nat) (d : List Char)
    (h : stringHit spec line ls1 i = some d) :
    d ∈ spec.stringDelimiter ∧ ls1.st.isInBlockComment = false ∧
    ls1.st.isInInlineComment = false ∧ ls1.st.isInString = false := by
  unfold stringHit at h
  split_ifs at h with hg
  · simp only [Bool.and_eq_true, Bool.not_eq_true'] at hg
    exact ⟨List.mem_of_find?_eq_some h, hg.1.1, hg.1.2, hg.2⟩

/-- `startPhase` never touches `TotalLines`. -/
theorem startPhase_total (spec : LanguageSpec) (lc : Bool) (line : List Char)
    (ls1 : LineScan) (i : Nat) :
    (startPhase spec lc line ls1 i).out.stat.TotalLines = ls1.stat.TotalLines := by
  unfold startPhase
  rcases h : stringHit spec line ls1 i with _ | d <;>
    simp only [] <;> (try split_ifs) <;> simp [StepOut.out]

/-- `true` iff the iteration left the loop via `break`. -/
def StepOut.isStop : StepOut → Bool
  | .cont _ _ => false
  | .stop _ => true

/-- `startPhase` leaves `InlineComments` unchanged when the loop
continues and increments it exactly once when it breaks. -/
theorem startPhase_inline (spec : LanguageSpec) (lc : Bool) (line : List Char)
    (ls1 : LineScan) (i : Nat) :
    (startPhase spec lc line ls1 i).out.stat.InlineComments =
      ls1.stat.InlineComments +
        (if (startPhase spec lc line ls1 i).isStop then 1 else 0) := by
  unfold startPhase
  rcases h : stringHit spec line ls1 i with _ | d <;>
    simp only [] <;> (try split_ifs) <;> simp_all [StepOut.out, StepOut.isStop]

/-- `startPhase` block accounting through the `counted` flag. -/
theorem startPhase_block (spec : LanguageSpec) (lc : Bool) (line : List Char)
    (ls1 : LineScan) (i : Nat) :
    (ls1.counted = true →
      (startPhase spec lc line ls1 i).out.counted = true ∧
      (startPhase spec lc line ls1 i).out.stat.BlockComments = ls1.stat.BlockComments) ∧
    (ls1.counted = false →
      ((startPhase spec lc line ls1 i).out.counted = false ∧
        (startPhase spec lc line ls1 i).out.stat.BlockComments = ls1.stat.BlockComments) ∨
      ((startPhase spec lc line ls1 i).out.counted = true ∧
        (startPhase spec lc line ls1 i).out.stat.BlockComments = ls1.stat.BlockComments + 1)) := by
  unfold startPhase
  rcases h : stringHit spec line ls1 i with _ | d <;>
    simp only [] <;> (try split_ifs) <;>
    constructor <;> intro hc <;> simp_all [StepOut.out]

/-- `startPhase` preserves well-formedness of the scanner state. -/
theorem startPhase_wf (spec : LanguageSpec) (lc : Bool) (line : List Char)
    (ls1 : LineScan) (i : Nat) (hwf : WF spec ls1.st) :
    WF spec (startPhase spec lc line ls1 i).out.st := by
  obtain ⟨⟨a1, a2, a3⟩, hdl⟩ := hwf
  unfold WF atMostOne
  unfold startPhase
  rcases h : stringHit spec line ls1 i with _ | d
  · simp only []
    split_ifs with h1 hc h2
    · simp only [Bool.and_eq_true, Bool.not_eq_true'] at h1
      obtain ⟨⟨⟨hp, hs⟩, hb⟩, hi⟩ := h1
      exact ⟨⟨by simp [StepOut.out, hi], by simp [StepOut.out, hs],
        by simp [StepOut.out, hi]⟩, by simp [StepOut.out, hs]⟩
    · simp only [Bool.and_eq_true, Bool.not_eq_true'] at h1
      obtain ⟨⟨⟨hp, hs⟩, hb⟩, hi⟩ := h1
      exact ⟨⟨by simp [StepOut.out, hi], by simp [StepOut.out, hs],
        by simp [StepOut.out, hi]⟩, by simp [StepOut.out, hs]⟩
    · simp only [Bool.and_eq_true, Bool.not_eq_true'] at h2
      obtain ⟨⟨hp, hs⟩, hb⟩ := h2
      exact ⟨⟨by simp [StepOut.out, hb], by simp [StepOut.out, hb],
        by simp [StepOut.out, hs]⟩, by simp [StepOut.out, hs]⟩
    · exact ⟨⟨a1, a2, a3⟩, hdl⟩
  · obtain ⟨hdmem, hb, hi, hs⟩ := stringHit_mem spec line ls1 i d h
    simp only []
    exact ⟨⟨by simp [StepOut.out, hb], by simp [StepOut.out, hb],
      by simp [StepOut.out, hi]⟩, by simp [StepOut.out, hdmem]⟩

/-- `startPhase` keeps the "a line inside a block comment has been
counted" linkage. -/
theorem startPhase_carry (spec : LanguageSpec) (lc : Bool) (line : List Char)
    (ls1 : LineScan) (i : Nat)
    (h : ls1.st.isInBlockComment = true → ls1.counted = true) :
    (startPhase spec lc line ls1 i).out.st.isInBlockComment = true →
    (startPhase spec lc line ls1 i).out.counted = true := by
  unfold startPhase
  rcases hh : stringHit spec line ls1 i with _ | d
  · simp only []
    split_ifs with h1 hc h2
    · simp [StepOut.out]
    · simp only [Bool.not_eq_true', Bool.not_eq_false] at hc
      simp [StepOut.out, hc]
    · simp only [Bool.and_eq_true, Bool.not_eq_true'] at h2
      simp [StepOut.out, h2.2]
    · simpa [StepOut.out] using h
  · obtain ⟨_, hb, _, _⟩ := stringHit_mem spec line ls1 i d hh
    simp [StepOut.out, hb]

/-- The cursor the loop continues at, when it does not break. -/
def StepOut.cursorOpt : StepOut → Option Nat
  | .cont _ i => some i
  | .stop _ => none

/-- Under the built-in C/C++ spec, whenever `startPhase` continues the
loop it strictly advances the cursor. -/
theorem startPhase_progress (lc : Bool) (line : List Char)
    (ls1 : LineScan) (i : Nat) :
    ∀ i' ∈ (startPhase cppSpec lc line ls1 i).cursorOpt, i < i' := by
  unfold startPhase
  rcases h : stringHit cppSpec line ls1 i with _ | d
  · simp only []
    split_ifs <;> intro i' hi' <;>
      simp [StepOut.cursorOpt, cppSpec] at hi' <;> omega
  · have hmem := (stringHit_mem _ _ _ _ _ h).1
    simp only [cppSpec, List.mem_cons, List.not_mem_nil, or_false] at hmem
    intro i' hi'
    simp only [StepOut.cursorOpt, Option.mem_def, Option.some.injEq] at hi'
    have hlen : d.length = 1 := by rcases hmem with h' | h' <;> simp [h']
    omega

/-- The open string's delimiter is always one of the spec's string
delimiters. -/
def DelimOk (spec : LanguageSpec) (st : ScanState) : Prop :=
  st.isInString = true → st.currentStringDelimiter ∈ spec.stringDelimiter

/-- `startPhase` preserves `DelimOk`. -/
theorem startPhase_delim (spec : LanguageSpec) (lc : Bool) (line : List Char)
    (ls1 : LineScan) (i : Nat) (h : DelimOk spec ls1.st) :
    DelimOk spec (startPhase spec lc line ls1 i).out.st := by
  unfold startPhase
  rcases hh : stringHit spec line ls1 i with _ | d
  · simp only []
    split_ifs with h1 hc h2
    · simp only [Bool.and_eq_true, Bool.not_eq_true'] at h1
      intro hs
      simp [StepOut.out, h1.1.1.2] at hs
    · simp only [Bool.and_eq_true, Bool.not_eq_true'] at h1
      intro hs
      simp [StepOut.out, h1.1.1.2] at hs
    · simp only [Bool.and_eq_true, Bool.not_eq_true'] at h2
      intro hs
      simp [StepOut.out, h2.1.2] at hs
    · exact h
  · obtain ⟨hdmem, _, _, _⟩ := stringHit_mem spec line ls1 i d hh
    intro _
    simpa [StepOut.out] using hdmem

/-- The in-string branch preserves `DelimOk`. -/
theorem stringPhase_delim (spec : LanguageSpec) (line : List Char)
    (ls : LineScan) (i : Nat) (r : StepOut)
    (hd : DelimOk spec ls.st) (h : stringPhase spec line ls i = some r) :
    DelimOk spec r.out.st := by
  unfold stringPhase at h
  split_ifs at h with h1 h2
  · injection h with h; subst h
    intro hs
    simp [StepOut.out] at hs
  · injection h with h; subst h
    exact hd

/-- One loop iteration never touches `TotalLines`. -/
theorem scanStep_total (spec : LanguageSpec) (lc : Bool) (line : List Char)
    (ls : LineScan) (i : Nat) :
    (scanStep spec lc line ls i).out.stat.TotalLines = ls.stat.TotalLines := by
  unfold scanStep
  rcases h : stringPhase spec line ls i with _ | r
  · simp only [h]
    split_ifs with h1 h2
    · simp [StepOut.out, (blockCountOnce_stat ls).1]
    · simp [StepOut.out, (blockCountOnce_stat ls).1]
    · rw [startPhase_total]
      exact (blockCountOnce_stat ls).1
  · simp only [h]
    exact congrArg FileStats.TotalLines (stringPhase_out spec line ls i r h).1

/-- One loop iteration leaves `InlineComments` unchanged when it
continues and increments it exactly once when it breaks. -/
theorem scanStep_inline (spec : LanguageSpec) (lc : Bool) (line : List Char)
    (ls : LineScan) (i : Nat) :
    (scanStep spec lc line ls i).out.stat.InlineComments =
      ls.stat.InlineComments +
        (if (scanStep spec lc line ls i).isStop then 1 else 0) := by
  unfold scanStep
  rcases h : stringPhase spec line ls i with _ | r
  · simp only [h]
    have hh := startPhase_inline spec lc line (blockCountOnce ls) i
    rcases hsp : startPhase spec lc line (blockCountOnce ls) i with ⟨ls', i'⟩ | ⟨ls'⟩ <;>
      split_ifs <;>
      simp_all [StepOut.out, StepOut.isStop, (blockCountOnce_stat ls).2]
  · simp only [h]
    obtain ⟨hstat, _, _, _, _, ls', i', rfl⟩ := stringPhase_out spec line ls i r h
    simp only [StepOut.out, StepOut.isStop] at hstat ⊢
    simp [hstat]

/-- One loop iteration: block-comment accounting through the per-line
`counted` flag. -/
theorem scanStep_block (spec : LanguageSpec) (lc : Bool) (line : List Char)
    (ls : LineScan) (i : Nat) :
    (ls.counted = true →
      (scanStep spec lc line ls i).out.counted = true ∧
      (scanStep spec lc line ls i).out.stat.BlockComments = ls.stat.BlockComments) ∧
    (ls.counted = false →
      ((scanStep spec lc line ls i).out.counted = false ∧
        (scanStep spec lc line ls i).out.stat.BlockComments = ls.stat.BlockComments) ∨
      ((scanStep spec lc line ls i).out.counted = true ∧
        (scanStep spec lc line ls i).out.stat.BlockComments = ls.stat.BlockComments + 1)) := by
  unfold scanStep
  rcases h : stringPhase spec line ls i with _ | r
  · simp only [h]
    have hbco := blockCountOnce_block ls
    split_ifs with h1 h2
    · constructor
      · intro hc
        obtain ⟨hc1, hc2⟩ := hbco.1 hc
        simp [StepOut.out, hc1, hc2]
      · intro hc
        rcases hbco.2 hc with ⟨hc1, hc2⟩ | ⟨hc1, hc2⟩
        · exact Or.inl (by simp [StepOut.out, hc1, hc2])
        · exact Or.inr (by simp [StepOut.out, hc1, hc2])
    · constructor
      · intro hc
        obtain ⟨hc1, hc2⟩ := hbco.1 hc
        simp [StepOut.out, hc1, hc2]
      · intro hc
        rcases hbco.2 hc with ⟨hc1, hc2⟩ | ⟨hc1, hc2⟩
        · exact Or.inl (by simp [StepOut.out, hc1, hc2])
        · exact Or.inr (by simp [StepOut.out, hc1, hc2])
    · have hsp := startPhase_block spec lc line (blockCountOnce ls) i
      constructor
      · intro hc
        obtain ⟨hc1, hc2⟩ := hbco.1 hc
        obtain ⟨hs1, hs2⟩ := hsp.1 hc1
        exact ⟨hs1, by rw [hs2, hc2]⟩
      · intro hc
        rcases hbco.2 hc with ⟨hc1, hc2⟩ | ⟨hc1, hc2⟩
        · rcases hsp.2 hc1 with ⟨hs1, hs2⟩ | ⟨hs1, hs2⟩
          · exact Or.inl ⟨hs1, by rw [hs2, hc2]⟩
          · exact Or.inr ⟨hs1, by rw [hs2, hc2]⟩
        · obtain ⟨hs1, hs2⟩ := hsp.1 hc1
          exact Or.inr ⟨hs1, by rw [hs2, hc2]⟩
  · simp only [h]
    obtain ⟨hstat, hcnt, _, _, _, ls', i', rfl⟩ := stringPhase_out spec line ls i r h
    simp only [StepOut.out] at hstat hcnt ⊢
    constructor
    · intro hc
      exact ⟨by rw [hcnt, hc], by rw [hstat]⟩
    · intro hc
      exact Or.inl ⟨by rw [hcnt, hc], by rw [hstat]⟩

/-- One loop iteration preserves well-formedness. -/
theorem scanStep_wf (spec : LanguageSpec) (lc : Bool) (line : List Char)
    (ls : LineScan) (i : Nat) (hwf : WF spec ls.st) :
    WF spec (scanStep spec lc line ls i).out.st := by
  unfold scanStep
  rcases h : stringPhase spec line ls i with _ | r
  · simp only [h]
    split_ifs with h1 h2
    · obtain ⟨⟨a1, a2, a3⟩, hdl⟩ := hwf
      unfold WF atMostOne
      simp only [StepOut.out, blockCountOnce_st]
      exact ⟨⟨by simp, by simp, fun hx => a3 hx⟩, fun hx => hdl hx⟩
    · obtain ⟨⟨a1, a2, a3⟩, hdl⟩ := hwf
      rw [blockCountOnce_st] at h2
      have hb : ls.st.isInBlockComment = false := by
        by_contra hx
        exact a1 ⟨by simpa using hx, h2⟩
      have hs : ls.st.isInString = false := by
        by_contra hx
        exact a3 ⟨h2, by simpa using hx⟩
      unfold WF atMostOne
      simp only [StepOut.out, blockCountOnce_st]
      exact ⟨⟨by simp [hb], by simp [hb, hs], by simp [hs]⟩, by simp [hs]⟩
    · exact startPhase_wf spec lc line (blockCountOnce ls) i
        (by rw [blockCountOnce_st]; exact hwf)
  · simp only [h]
    exact stringPhase_wf spec line ls i r hwf h

/-- One loop iteration preserves `DelimOk`. -/
theorem scanStep_delim (spec : LanguageSpec) (lc : Bool) (line : List Char)
    (ls : LineScan) (i : Nat) (hd : DelimOk spec ls.st) :
    DelimOk spec (scanStep spec lc line ls i).out.st := by
  unfold scanStep
  rcases h : stringPhase spec line ls i with _ | r
  · simp only [h]
    split_ifs with h1 h2
    · intro hx
      simp only [StepOut.out, blockCountOnce_st] at hx ⊢
      exact hd hx
    · intro hx
      simp only [StepOut.out, blockCountOnce_st] at hx ⊢
      exact hd hx
    · exact startPhase_delim spec lc line (blockCountOnce ls) i
        (by rw [blockCountOnce_st]; exact hd)
  · simp only [h]
    exact stringPhase_delim spec line ls i r hd h

/-- After one loop iteration on a well-formed state, a line found inside
a block comment has been counted. -/
theorem scanStep_carry (spec : LanguageSpec) (lc : Bool) (line : List Char)
    (ls : LineScan) (i : Nat) (hwf : WF spec ls.st) :
    (scanStep spec lc line ls i).out.st.isInBlockComment = true →
    (scanStep spec lc line ls i).out.counted = true := by
  unfold scanStep
  rcases h : stringPhase spec line ls i with _ | r
  · simp only [h]
    split_ifs with h1 h2
    · simp [StepOut.out]
    · intro hb
      simp only [StepOut.out, blockCountOnce_st] at hb ⊢
      exact blockCountOnce_marks ls (by rw [blockCountOnce_st]; exact hb)
    · exact startPhase_carry spec lc line (blockCountOnce ls) i
        (fun hb => blockCountOnce_marks ls hb)
  · simp only [h]
    obtain ⟨_, hcnt, hbl, _, hstr, _⟩ := stringPhase_out spec line ls i r h
    intro hb
    rw [hbl] at hb
    exact absurd ⟨hb, hstr⟩ hwf.1.2.1

/-- Under the built-in C/C++ spec, every iteration that continues the
loop strictly advances the cursor. -/
theorem scanStep_progress (lc : Bool) (line : List Char) (ls : LineScan)
    (i : Nat) (hd : DelimOk cppSpec ls.st) :
    ∀ i' ∈ (scanStep cppSpec lc line ls i).cursorOpt, i < i' := by
  unfold scanStep
  rcases h : stringPhase cppSpec line ls i with _ | r
  · simp only [h]
    split_ifs with h1 h2
    · intro i' hi'
      simp only [StepOut.cursorOpt, Option.mem_def, Option.some.injEq] at hi'
      simp only [cppSpec, List.length_cons, List.length_nil] at hi'
      omega
    · intro i' hi'
      simp [StepOut.cursorOpt] at hi'
    · exact startPhase_progress lc line (blockCountOnce ls) i
  · simp only [h]
    obtain ⟨_, _, _, _, _, ls2, j, rfl⟩ := stringPhase_out cppSpec line ls i r h
    intro i' hi'
    simp only [StepOut.cursorOpt, Option.mem_def, Option.some.injEq] at hi'
    subst hi'
    exact stringPhase_progress line ls i ls2 j hd h

/-- Outside a block comment, `blockCountOnce` is the identity. -/
theorem blockCountOnce_id (ls : LineScan)
    (hb : ls.st.isInBlockComment = false) : blockCountOnce ls = ls := by
  unfold blockCountOnce
  simp [hb]

/-- Inside a block comment whose end marker does not match at the
cursor, the iteration just counts (at most once) and advances one
character, leaving the state untouched. -/
theorem scanStep_inblock_noend (spec : LanguageSpec) (lc : Bool)
    (line : List Char) (ls : LineScan) (i : Nat) (hwf : WF spec ls.st)
    (hb : ls.st.isInBlockComment = true)
    (hpe : spec.blockCommentEnd.isPrefixOf (line.drop i) = false) :
    scanStep spec lc line ls i = .cont (blockCountOnce ls) (i + 1) := by
  obtain ⟨⟨a1, a2, a3⟩, hdl⟩ := hwf
  have hs : ls.st.isInString = false := by
    by_contra hx
    exact a2 ⟨hb, by simpa using hx⟩
  have hi : ls.st.isInInlineComment = false := by
    by_contra hx
    exact a1 ⟨hb, by simpa using hx⟩
  have hsp : stringPhase spec line ls i = none := by
    unfold stringPhase
    simp [hs]
  unfold scanStep
  simp only [hsp]
  unfold startPhase stringHit
  simp [blockCountOnce_st, hb, hi, hs, hpe]

/-- The first iteration of a line that begins inside a block comment
counts the line exactly once. -/
theorem scanStep_inblock_counts (spec : LanguageSpec) (lc : Bool)
    (line : List Char) (ls : LineScan) (i : Nat) (hwf : WF spec ls.st)
    (hb : ls.st.isInBlockComment = true) (hc : ls.counted = false) :
    (scanStep spec lc line ls i).out.counted = true ∧
    (scanStep spec lc line ls i).out.stat.BlockComments =
      ls.stat.BlockComments + 1 := by
  have hbb : (blockCountOnce ls).counted = true :=
    blockCountOnce_marks ls (by rw [blockCountOnce_st]; exact hb)
  have hbl : (blockCountOnce ls).stat.BlockComments = ls.stat.BlockComments + 1 := by
    rcases (blockCountOnce_block ls).2 hc with ⟨h1, _⟩ | ⟨_, h2⟩
    · rw [h1] at hbb; exact absurd hbb (by simp)
    · exact h2
  obtain ⟨⟨a1, a2, a3⟩, hdl⟩ := hwf
  have hs : ls.st.isInString = false := by
    by_contra hx
    exact a2 ⟨hb, by simpa using hx⟩
  have hi : ls.st.isInInlineComment = false := by
    by_contra hx
    exact a1 ⟨hb, by simpa using hx⟩
  have hsp : stringPhase spec line ls i = none := by
    unfold stringPhase
    simp [hs]
  unfold scanStep
  simp only [hsp]
  split_ifs with h1 h2
  · exact ⟨by simp [StepOut.out, hbb], by simp [StepOut.out, hbl]⟩
  · rw [blockCountOnce_st] at h2
    rw [hi] at h2
    cases h2
  · obtain ⟨hs1, hs2⟩ := (startPhase_block spec lc line (blockCountOnce ls) i).1 hbb
    exact ⟨hs1, by rw [hs2, hbl]⟩

/-- While a string literal is open, no iteration changes the
statistics: comment markers inside an open string never count. -/
theorem scanStep_instring (spec : LanguageSpec) (lc : Bool)
    (line : List Char) (ls : LineScan) (i : Nat) (hwf : WF spec ls.st)
    (hstr : ls.st.isInString = true) :
    (scanStep spec lc line ls i).out.stat = ls.stat := by
  obtain ⟨⟨a1, a2, a3⟩, hdl⟩ := hwf
  have hb : ls.st.isInBlockComment = false := by
    by_contra hx
    exact a2 ⟨by simpa using hx, hstr⟩
  have hi : ls.st.isInInlineComment = false := by
    by_contra hx
    exact a3 ⟨by simpa using hx, hstr⟩
  unfold scanStep
  rcases h : stringPhase spec line ls i with _ | r
  · simp only [h]
    rw [blockCountOnce_id ls hb]
    simp only [hb, hi]
    unfold startPhase stringHit
    simp [hb, hi, hstr, StepOut.out]
  · simp only [h]
    exact (stringPhase_out spec line ls i r h).1

/-- A counted line stays counted: `blockCountOnce` is the identity. -/
theorem blockCountOnce_id2 (ls : LineScan) (hc : ls.counted = true) :
    blockCountOnce ls = ls := by
  unfold blockCountOnce
  simp [hc]

/-- The character loop never touches `TotalLines`. -/
theorem scanLoop_total (spec : LanguageSpec) (lc : Bool) (line : List Char) :
    ∀ fuel ls i,
      (scanLoop spec lc line fuel ls i).stat.TotalLines = ls.stat.TotalLines := by
  intro fuel
  induction fuel with
  | zero => intro ls i; rfl
  | succ n ih =>
    intro ls i
    unfold scanLoop
    split_ifs with hlt
    · rcases hstep : scanStep spec lc line ls i with ⟨ls', i'⟩ | ⟨ls'⟩
      · have hT := scanStep_total spec lc line ls i
        rw [hstep] at hT
        simp only [StepOut.out] at hT
        rw [ih ls' i', hT]
      · have hT := scanStep_total spec lc line ls i
        rw [hstep] at hT
        simpa [StepOut.out] using hT
    · rfl

/-- The character loop increments `InlineComments` at most once: the
only increments happen on `break`, which ends the loop. -/
theorem scanLoop_inline (spec : LanguageSpec) (lc : Bool) (line : List Char) :
    ∀ fuel ls i,
      (scanLoop spec lc line fuel ls i).stat.InlineComments ≤
        ls.stat.InlineComments + 1 := by
  intro fuel
  induction fuel with
  | zero => intro ls i; simp [scanLoop]
  | succ n ih =>
    intro ls i
    unfold scanLoop
    split_ifs with hlt
    · rcases hstep : scanStep spec lc line ls i with ⟨ls', i'⟩ | ⟨ls'⟩ <;>
        have hI := scanStep_inline spec lc line ls i <;>
        rw [hstep] at hI <;>
        simp only [StepOut.out, StepOut.isStop] at hI <;>
        dsimp only
      · have h2 : ls'.stat.InlineComments = ls.stat.InlineComments := by
          simpa using hI
        have h3 := ih ls' i'
        omega
      · have h2 : ls'.stat.InlineComments = ls.stat.InlineComments + 1 := by
          simpa using hI
        omega
    · omega

/-- The character loop's block accounting: either the `counted` flag and
`BlockComments` are unchanged, or the flag was newly set and the counter
grew exactly once. -/
theorem scanLoop_block (spec : LanguageSpec) (lc : Bool) (line : List Char) :
    ∀ fuel ls i,
      ((scanLoop spec lc line fuel ls i).counted = ls.counted ∧
        (scanLoop spec lc line fuel ls i).stat.BlockComments =
          ls.stat.BlockComments) ∨
      (ls.counted = false ∧ (scanLoop spec lc line fuel ls i).counted = true ∧
        (scanLoop spec lc line fuel ls i).stat.BlockComments =
          ls.stat.BlockComments + 1) := by
  intro fuel
  induction fuel with
  | zero => intro ls i; exact Or.inl ⟨rfl, rfl⟩
  | succ n ih =>
    intro ls i
    unfold scanLoop
    split_ifs with hlt
    · rcases hstep : scanStep spec lc line ls i with ⟨ls', i'⟩ | ⟨ls'⟩ <;>
        have hB := scanStep_block spec lc line ls i <;>
        rw [hstep] at hB <;>
        simp only [StepOut.out] at hB
      · rcases hc : ls.counted with _ | _
        · rcases hB.2 hc with ⟨h1, h2⟩ | ⟨h1, h2⟩
          · rcases ih ls' i' with ⟨g1, g2⟩ | ⟨g1, g2, g3⟩
            · exact Or.inl ⟨by rw [g1, h1], by rw [g2, h2]⟩
            · exact Or.inr ⟨rfl, g2, by rw [g3, h2]⟩
          · rcases ih ls' i' with ⟨g1, g2⟩ | ⟨g1, g2, g3⟩
            · exact Or.inr ⟨rfl, by rw [g1, h1], by rw [g2, h2]⟩
            · rw [h1] at g1; cases g1
        · obtain ⟨h1, h2⟩ := hB.1 hc
          rcases ih ls' i' with ⟨g1, g2⟩ | ⟨g1, g2, g3⟩
          · exact Or.inl ⟨by rw [g1, h1], by rw [g2, h2]⟩
          · rw [h1] at g1; cases g1
      · rcases hc : ls.counted with _ | _
        · rcases hB.2 hc with ⟨h1, h2⟩ | ⟨h1, h2⟩
          · exact Or.inl ⟨by rw [h1], by rw [h2]⟩
          · exact Or.inr ⟨rfl, h1, h2⟩
        · obtain ⟨h1, h2⟩ := hB.1 hc
          exact Or.inl ⟨by rw [h1], by rw [h2]⟩
    · exact Or.inl ⟨rfl, rfl⟩

/-- The character loop preserves well-formedness. -/
theorem scanLoop_wf (spec : LanguageSpec) (lc : Bool) (line : List Char) :
    ∀ fuel ls i, WF spec ls.st →
      WF spec (scanLoop spec lc line fuel ls i).st := by
  intro fuel
  induction fuel with
  | zero => intro ls i h; exact h
  | succ n ih =>
    intro ls i hwf
    unfold scanLoop
    split_ifs with hlt
    · rcases hstep : scanStep spec lc line ls i with ⟨ls', i'⟩ | ⟨ls'⟩ <;>
        have hW := scanStep_wf spec lc line ls i hwf <;>
        rw [hstep] at hW <;>
        simp only [StepOut.out] at hW
      · exact ih ls' i' hW
      · exact hW
    · exact hwf

/-- The character loop preserves `DelimOk`. -/
theorem scanLoop_delim (spec : LanguageSpec) (lc : Bool) (line : List Char) :
    ∀ fuel ls i, DelimOk spec ls.st →
      DelimOk spec (scanLoop spec lc line fuel ls i).st := by
  intro fuel
  induction fuel with
  | zero => intro ls i h; exact h
  | succ n ih =>
    intro ls i hd
    unfold scanLoop
    split_ifs with hlt
    · rcases hstep : scanStep spec lc line ls i with ⟨ls', i'⟩ | ⟨ls'⟩ <;>
        have hD := scanStep_delim spec lc line ls i hd <;>
        rw [hstep] at hD <;>
        simp only [StepOut.out] at hD
      · exact ih ls' i' hD
      · exact hD
    · exact hd

/-- Along the character loop on well-formed states, a final state inside
a block comment means the line was counted. -/
theorem scanLoop_carry (spec : LanguageSpec) (lc : Bool) (line : List Char) :
    ∀ fuel ls i, WF spec ls.st →
      (ls.st.isInBlockComment = true → ls.counted = true) →
      (scanLoop spec lc line fuel ls i).st.isInBlockComment = true →
      (scanLoop spec lc line fuel ls i).counted = true := by
  intro fuel
  induction fuel with
  | zero => intro ls i _ h hb; exact h hb
  | succ n ih =>
    intro ls i hwf hgood
    unfold scanLoop
    split_ifs with hlt
    · rcases hstep : scanStep spec lc line ls i with ⟨ls', i'⟩ | ⟨ls'⟩ <;>
        have hW := scanStep_wf spec lc line ls i hwf <;>
        have hC := scanStep_carry spec lc line ls i hwf <;>
        rw [hstep] at hW hC <;>
        simp only [StepOut.out] at hW hC
      · exact ih ls' i' hW hC
      · exact hC
    · exact hgood

/-- Inside a block comment with no end marker anywhere on the line, an
already-counted loop run changes nothing at all. -/
theorem scanLoop_noend_counted (spec : LanguageSpec) (lc : Bool)
    (line : List Char)
    (hno : ∀ j, spec.blockCommentEnd.isPrefixOf (line.drop j) = false) :
    ∀ fuel ls i, WF spec ls.st → ls.st.isInBlockComment = true →
      ls.counted = true → scanLoop spec lc line fuel ls i = ls := by
  intro fuel
  induction fuel with
  | zero => intro ls i _ _ _; rfl
  | succ n ih =>
    intro ls i hwf hb hc
    unfold scanLoop
    split_ifs with hlt
    · rw [scanStep_inblock_noend spec lc line ls i hwf hb (hno i)]
      rw [blockCountOnce_id2 ls hc]
      exact ih ls (i + 1) hwf hb hc
    · rfl

/-- Inside a block comment with no end marker anywhere on the line, an
uncounted loop run counts the line exactly once and changes nothing
else. -/
theorem scanLoop_noend_uncounted (spec : LanguageSpec) (lc : Bool)
    (line : List Char)
    (hno : ∀ j, spec.blockCommentEnd.isPrefixOf (line.drop j) = false) :
    ∀ fuel ls i, WF spec ls.st → ls.st.isInBlockComment = true →
      ls.counted = false → i < line.length → 0 < fuel →
      scanLoop spec lc line fuel ls i =
        { st := ls.st,
          stat := { ls.stat with BlockComments := ls.stat.BlockComments + 1 },
          counted := true } := by
  intro fuel ls i hwf hb hc hlt hf
  rcases fuel with _ | n
  · omega
  · unfold scanLoop
    rw [if_pos hlt]
    rw [scanStep_inblock_noend spec lc line ls i hwf hb (hno i)]
    have hbco : blockCountOnce ls =
        { st := ls.st,
          stat := { ls.stat with BlockComments := ls.stat.BlockComments + 1 },
          counted := true } := by
      unfold blockCountOnce
      simp [hb, hc]
    rw [hbco]
    exact scanLoop_noend_counted spec lc line hno n _ (i + 1) hwf hb rfl

/-- Once the cursor has reached the end of the line the loop exits
immediately, whatever fuel remains. -/
theorem scanLoop_le_exit (spec : LanguageSpec) (lc : Bool) (line : List Char) :
    ∀ fuel ls i, line.length ≤ i → scanLoop spec lc line fuel ls i = ls := by
  intro fuel ls i hge
  rcases fuel with _ | n
  · rfl
  · unfold scanLoop
    rw [if_neg (by omega)]

/-- Under the built-in C/C++ spec the loop's result does not depend on
the fuel, as soon as the fuel covers the remaining line length: every
continuing iteration strictly advances the cursor. -/
theorem scanLoop_fuel (lc : Bool) (line : List Char) :
    ∀ k ls i f1 f2, line.length - i ≤ k → DelimOk cppSpec ls.st →
      line.length - i ≤ f1 → line.length - i ≤ f2 →
      scanLoop cppSpec lc line f1 ls i = scanLoop cppSpec lc line f2 ls i := by
  intro k
  induction k with
  | zero =>
    intro ls i f1 f2 hk hd h1 h2
    have hge : line.length ≤ i := by omega
    rw [scanLoop_le_exit _ _ _ f1 ls i hge, scanLoop_le_exit _ _ _ f2 ls i hge]
  | succ n ih =>
    intro ls i f1 f2 hk hd h1 h2
    by_cases hlt : i < line.length
    · rcases f1 with _ | m1
      · omega
      rcases f2 with _ | m2
      · omega
      unfold scanLoop
      rw [if_pos hlt, if_pos hlt]
      rcases hstep : scanStep cppSpec lc line ls i with ⟨ls', i'⟩ | ⟨ls'⟩
      · have hpr := scanStep_progress lc line ls i hd i' (by rw [hstep]; rfl)
        have hD := scanStep_delim cppSpec lc line ls i hd
        rw [hstep] at hD
        simp only [StepOut.out] at hD
        exact ih ls' i' m1 m2 (by omega) hD (by omega) (by omega)
      · rfl
    · have hge : line.length ≤ i := by omega
      rw [scanLoop_le_exit _ _ _ f1 ls i hge, scanLoop_le_exit _ _ _ f2 ls i hge]

/-- Every line increments `TotalLines` exactly once, regardless of its
content. -/
theorem scanLine_total (spec : LanguageSpec) (st : ScanState)
    (stat : FileStats) (line : List Char) :
    (scanLine spec st stat line).2.TotalLines = stat.TotalLines + 1 := by
  rcases line with _ | ⟨c, cs⟩
  · simp only [scanLine]
    split_ifs <;> rfl
  · simp only [scanLine]
    rw [scanLoop_total]

/-- Every line increments `InlineComments` at most once. -/
theorem scanLine_inline_le (spec : LanguageSpec) (st : ScanState)
    (stat : FileStats) (line : List Char) :
    (scanLine spec st stat line).2.InlineComments ≤ stat.InlineComments + 1 := by
  rcases line with _ | ⟨c, cs⟩
  · simp only [scanLine]
    split_ifs <;> simp
  · simp only [scanLine]
    exact scanLoop_inline spec _ _ _ _ _

/-- Every line increments `BlockComments` at most once. -/
theorem scanLine_block_le (spec : LanguageSpec) (st : ScanState)
    (stat : FileStats) (line : List Char) :
    (scanLine spec st stat line).2.BlockComments = stat.BlockComments ∨
    (scanLine spec st stat line).2.BlockComments = stat.BlockComments + 1 := by
  rcases line with _ | ⟨c, cs⟩
  · simp only [scanLine]
    split_ifs <;> simp
  · simp only [scanLine]
    rcases scanLoop_block spec _ _ (c :: cs).length.succ
        { st := st,
          stat := { stat with TotalLines := stat.TotalLines + 1 },
          counted := false } 0 with ⟨_, h2⟩ | ⟨_, _, h3⟩
    · exact Or.inl h2
    · exact Or.inr h3

/-- A line entered with an open block comment is counted as a
block-comment line exactly once. -/
theorem scanLine_inblock (spec : LanguageSpec) (st : ScanState)
    (stat : FileStats) (line : List Char) (hwf : WF spec st)
    (hb : st.isInBlockComment = true) :
    (scanLine spec st stat line).2.BlockComments = stat.BlockComments + 1 := by
  rcases line with _ | ⟨c, cs⟩
  · simp only [scanLine]
    have hi : st.isInInlineComment = false := by
      by_contra hx
      exact hwf.1.1 ⟨hb, by simpa using hx⟩
    split_ifs <;> simp_all
  · simp only [scanLine]
    generalize lineContinuedF spec (c :: cs) = lcv
    set ls0 : LineScan :=
      { st := st,
        stat := { stat with TotalLines := stat.TotalLines + 1 },
        counted := false } with hls0
    have hlt : (0 : Nat) < (c :: cs).length := by simp
    unfold scanLoop
    rw [if_pos hlt]
    rcases hstep : scanStep spec lcv (c :: cs) ls0 0 with ⟨ls', i'⟩ | ⟨ls'⟩ <;>
      have hK := scanStep_inblock_counts spec lcv (c :: cs) ls0 0 hwf hb rfl <;>
      rw [hstep] at hK <;>
      simp only [StepOut.out] at hK <;>
      dsimp only
    · rcases scanLoop_block spec lcv (c :: cs) ((c :: cs).length) ls' i'
          with ⟨_, h2⟩ | ⟨g1, _, _⟩
      · rw [h2, hK.2]
      · rw [hK.1] at g1; cases g1
    · exact hK.2

/-- Scanning a line preserves well-formedness of the carried state. -/
theorem scanLine_wf (spec : LanguageSpec) (st : ScanState)
    (stat : FileStats) (line : List Char) (hwf : WF spec st) :
    WF spec (scanLine spec st stat line).1 := by
  rcases line with _ | ⟨c, cs⟩
  · obtain ⟨⟨a1, a2, a3⟩, hdl⟩ := hwf
    simp only [scanLine]
    split_ifs with h1 h2 h3 <;>
      unfold WF atMostOne <;>
      refine ⟨⟨?_, ?_, ?_⟩, ?_⟩ <;> simp_all
  · simp only [scanLine]
    exact scanLoop_wf spec _ _ _ _ _ hwf

/-- If the state after a line has an open block comment, that line was
counted as a block-comment line. -/
theorem scanLine_outblock (spec : LanguageSpec) (st : ScanState)
    (stat : FileStats) (line : List Char) (hwf : WF spec st)
    (hb : (scanLine spec st stat line).1.isInBlockComment = true) :
    (scanLine spec st stat line).2.BlockComments = stat.BlockComments + 1 := by
  rcases hst : st.isInBlockComment with _ | _
  · rcases line with _ | ⟨c, cs⟩
    · exfalso
      simp only [scanLine] at hb
      split_ifs at hb <;> simp_all
    · simp only [scanLine] at hb ⊢
      generalize hlcv : lineContinuedF spec (c :: cs) = lcv at hb ⊢
      set ls0 : LineScan :=
        { st := st,
          stat := { stat with TotalLines := stat.TotalLines + 1 },
          counted := false } with hls0
      have hgood : ls0.st.isInBlockComment = true → ls0.counted = true := by
        intro hx
        rw [hst] at hx
        cases hx
      have hcar := scanLoop_carry spec lcv (c :: cs) ((c :: cs).length + 1)
        ls0 0 hwf hgood hb
      rcases scanLoop_block spec lcv (c :: cs) ((c :: cs).length + 1) ls0 0
          with ⟨g1, g2⟩ | ⟨_, _, g3⟩
      · rw [hcar] at g1
        cases g1
      · exact g3
  · exact scanLine_inblock spec st stat line hwf hst

/-- A line scanned inside a block comment whose end marker never occurs
on it: the carried state is unchanged and the line is counted exactly
once as a block-comment line (and as nothing else). -/
theorem scanLine_noend (spec : LanguageSpec) (st : ScanState)
    (stat : FileStats) (line : List Char) (hwf : WF spec st)
    (hb : st.isInBlockComment = true)
    (hno : ∀ j, spec.blockCommentEnd.isPrefixOf (line.drop j) = false) :
    scanLine spec st stat line =
      (st, { TotalLines := stat.TotalLines + 1,
             InlineComments := stat.InlineComments,
             BlockComments := stat.BlockComments + 1 }) := by
  rcases line with _ | ⟨c, cs⟩
  · have hi : st.isInInlineComment = false := by
      by_contra hx
      exact hwf.1.1 ⟨hb, by simpa using hx⟩
    simp only [scanLine]
    split_ifs <;> simp_all
  · simp only [scanLine]
    generalize lineContinuedF spec (c :: cs) = lcv
    rw [scanLoop_noend_uncounted spec lcv (c :: cs) hno ((c :: cs).length + 1)
      { st := st,
        stat := { stat with TotalLines := stat.TotalLines + 1 },
        counted := false } 0 hwf hb rfl (by simp) (by omega)]

/-- Across a whole file, `TotalLines` counts exactly the lines. -/
theorem scanLines_total (spec : LanguageSpec) :
    ∀ L st stat, (scanLines spec st stat L).2.TotalLines =
      stat.TotalLines + L.length := by
  intro L
  induction L with
  | nil => intro st stat; simp [scanLines]
  | cons l rest ih =>
    intro st stat
    simp only [scanLines]
    rw [ih, scanLine_total]
    simp only [List.length_cons]
    omega

/-- Across a whole file, `InlineComments` grows by at most one per
line. -/
theorem scanLines_inline_le (spec : LanguageSpec) :
    ∀ L st stat, (scanLines spec st stat L).2.InlineComments ≤
      stat.InlineComments + L.length := by
  intro L
  induction L with
  | nil => intro st stat; simp [scanLines]
  | cons l rest ih =>
    intro st stat
    simp only [scanLines, List.length_cons]
    have h1 := ih (scanLine spec st stat l).1 (scanLine spec st stat l).2
    have h2 := scanLine_inline_le spec st stat l
    omega

/-- Across a whole file, `BlockComments` grows by at most one per
line. -/
theorem scanLines_block_le (spec : LanguageSpec) :
    ∀ L st stat, (scanLines spec st stat L).2.BlockComments ≤
      stat.BlockComments + L.length := by
  intro L
  induction L with
  | nil => intro st stat; simp [scanLines]
  | cons l rest ih =>
    intro st stat
    simp only [scanLines, List.length_cons]
    have h1 := ih (scanLine spec st stat l).1 (scanLine spec st stat l).2
    have h2 := scanLine_block_le spec st stat l
    rcases h2 with h2 | h2 <;> omega

/-- The carried state stays well-formed across every line of a file. -/
theorem scanLines_wf (spec : LanguageSpec) :
    ∀ L st stat, WF spec st → WF spec (scanLines spec st stat L).1 := by
  intro L
  induction L with
  | nil => intro st stat h; exact h
  | cons l rest ih =>
    intro st stat hwf
    simp only [scanLines]
    exact ih _ _ (scanLine_wf spec st stat l hwf)

/-- A file ending inside a block comment that never closes: the scan
completes, every remaining line is counted as a block-comment line, and
the state still shows the open block at end of input. -/
theorem scanLines_noend (spec : LanguageSpec) :
    ∀ L st stat, WF spec st → st.isInBlockComment = true →
      (∀ l ∈ L, ∀ j, spec.blockCommentEnd.isPrefixOf (l.drop j) = false) →
      scanLines spec st stat L =
        (st, { TotalLines := stat.TotalLines + L.length,
               InlineComments := stat.InlineComments,
               BlockComments := stat.BlockComments + L.length }) := by
  intro L
  induction L with
  | nil =>
    intro st stat _ _ _
    simp [scanLines]
  | cons l rest ih =>
    intro st stat hwf hb hno
    simp only [scanLines]
    rw [scanLine_noend spec st stat l hwf hb (hno l (by simp))]
    rw [ih st _ hwf hb (fun x hx j => hno x (by simp [hx]) j)]
    simp only [List.length_cons, Prod.mk.injEq, FileStats.mk.injEq]
    refine ⟨trivial, ?_, trivial, ?_⟩ <;> omega

/-- C1: with the built-in C/C++ `LanguageSpec`, a comment marker inside
an open string literal never triggers comment counting: while
`isInString` holds (on a well-formed state) no iteration changes the
statistics, and in particular scanning the single line
`x = "// not a comment";` yields `InlineComments = 0` and
`BlockComments = 0`. -/
theorem c1_string_suppresses_comments :
    (∀ lc line ls i, WF cppSpec ls.st → ls.st.isInString = true →
      (scanStep cppSpec lc line ls i).out.stat = ls.stat) ∧
    analyzeFile cppSpec
      [('x' :: ' ' :: '=' :: ' ' :: dquot ::
          ('/' :: '/' :: ' ' :: "not a comment".toList)) ++ [dquot, ';']] =
      { TotalLines := 1, InlineComments := 0, BlockComments := 0 } := by
  constructor
  · intro lc line ls i hwf hs
    exact scanStep_instring cppSpec lc line ls i hwf hs
  · decide

/-- Witness for C1 at a concrete in-string state and line `//`. -/
theorem c1_witness :
    (scanStep cppSpec false ['/', '/']
        ⟨⟨false, false, true, [dquot]⟩, ⟨1, 0, 0⟩, false⟩ 0).out.stat =
      ⟨1, 0, 0⟩ :=
  c1_string_suppresses_comments.1 false ['/', '/']
    ⟨⟨false, false, true, [dquot]⟩, ⟨1, 0, 0⟩, false⟩ 0 (by decide) rfl

/-- C2: a block comment spanning lines N to M increments
`BlockComments` exactly once per line of the span and never more than
once per line: (i) each line changes `BlockComments` by 0 or 1;
(ii) each line entered with the block open (the lines N+1..M, blank
lines included) adds exactly 1; (iii) each line left with the block
open (line N when N < M) adds exactly 1; (iv) a block opened and closed
on a single line (N = M) adds exactly 1. -/
theorem c2_block_span :
    (∀ st stat line,
      (scanLine cppSpec st stat line).2.BlockComments = stat.BlockComments ∨
      (scanLine cppSpec st stat line).2.BlockComments = stat.BlockComments + 1) ∧
    (∀ st stat line, WF cppSpec st → st.isInBlockComment = true →
      (scanLine cppSpec st stat line).2.BlockComments = stat.BlockComments + 1) ∧
    (∀ st stat line, WF cppSpec st →
      (scanLine cppSpec st stat line).1.isInBlockComment = true →
      (scanLine cppSpec st stat line).2.BlockComments = stat.BlockComments + 1) ∧
    analyzeFile cppSpec ["/* x */".toList] =
      { TotalLines := 1, InlineComments := 0, BlockComments := 1 } :=
  ⟨fun st stat line => scanLine_block_le cppSpec st stat line,
   fun st stat line hwf hb => scanLine_inblock cppSpec st stat line hwf hb,
   fun st stat line hwf hb => scanLine_outblock cppSpec st stat line hwf hb,
   by decide⟩

/-- Witness for C2 at a concrete open-block state and a marker-free
line. -/
theorem c2_witness :
    (scanLine cppSpec ⟨true, false, false, []⟩ ⟨0, 0, 0⟩ "xx".toList).2.BlockComments
      = 0 + 1 :=
  c2_block_span.2.1 ⟨true, false, false, []⟩ ⟨0, 0, 0⟩ "xx".toList (by decide) rfl

/-- C3: an inline comment whose line ends with the continuation
character carries into the next line: `// comment \` then
`more comment` counts one inline comment on each of the two lines, and
the inline-comment state is closed after the second line. -/
theorem c3_continuation_carry :
    (scanLine cppSpec initState ⟨0, 0, 0⟩ "// comment \\".toList).2.InlineComments = 1 ∧
    (scanLine cppSpec initState ⟨0, 0, 0⟩ "// comment \\".toList).1.isInInlineComment = true ∧
    (scanLines cppSpec initState ⟨0, 0, 0⟩
      ["// comment \\".toList, "more comment".toList]).2.InlineComments = 2 ∧
    (scanLines cppSpec initState ⟨0, 0, 0⟩
      ["// comment \\".toList, "more comment".toList]).1.isInInlineComment = false := by
  refine ⟨by decide, by decide, by decide, by decide⟩

/-- C4: a zero-length line closes a carried inline comment, counting it
for this line; keeps an open block comment open, counting this line as
a block-comment line; increments `TotalLines`; and touches nothing
else (scanning then proceeds to the next line, `src/main.go:184`). -/
theorem c4_empty_line (st : ScanState) (stat : FileStats) :
    (scanLine cppSpec st stat []).2.TotalLines = stat.TotalLines + 1 ∧
    (st.isInInlineComment = true →
      (scanLine cppSpec st stat []).2.InlineComments = stat.InlineComments + 1 ∧
      (scanLine cppSpec st stat []).1.isInInlineComment = false) ∧
    (st.isInInlineComment = false →
      (scanLine cppSpec st stat []).2.InlineComments = stat.InlineComments) ∧
    (st.isInBlockComment = true →
      (scanLine cppSpec st stat []).2.BlockComments = stat.BlockComments + 1 ∧
      (scanLine cppSpec st stat []).1.isInBlockComment = true) ∧
    (st.isInBlockComment = false →
      (scanLine cppSpec st stat []).2.BlockComments = stat.BlockComments) ∧
    (scanLine cppSpec st stat []).1.isInString = st.isInString ∧
    (scanLine cppSpec st stat []).1.isInBlockComment = st.isInBlockComment := by
  rcases st with ⟨b, il, s, d⟩
  cases b <;> cases il <;> simp [scanLine]

/-- Witness for C4 at a state carrying both an inline and a block
comment into an empty line. -/
theorem c4_witness :
    (scanLine cppSpec ⟨true, true, false, []⟩ ⟨0, 0, 0⟩ []).2.InlineComments = 0 + 1 ∧
    (scanLine cppSpec ⟨true, true, false, []⟩ ⟨0, 0, 0⟩ []).2.BlockComments = 0 + 1 :=
  ⟨((c4_empty_line ⟨true, true, false, []⟩ ⟨0, 0, 0⟩).2.1 rfl).1,
   ((c4_empty_line ⟨true, true, false, []⟩ ⟨0, 0, 0⟩).2.2.2.1 rfl).1⟩

/-- C5 counterexample: the claim asserts that for some input both
`isInBlockComment` and `isInString` are simultaneously true at a line
boundary.  No such input exists: opening a string requires
`!isInBlockComment` and opening a block comment requires `!isInString`
(`src/main.go:228,240`), so the two flags are never simultaneously true
at any line boundary of any scan. -/
theorem c5_counterexample :
    ¬ ∃ lines : List (List Char),
      (scanLines cppSpec initState ⟨0, 0, 0⟩ lines).1.isInBlockComment = true ∧
      (scanLines cppSpec initState ⟨0, 0, 0⟩ lines).1.isInString = true := by
  rintro ⟨lines, hb, hs⟩
  have hwf := scanLines_wf cppSpec lines initState ⟨0, 0, 0⟩ (initState_wf cppSpec)
  exact hwf.1.2.1 ⟨hb, hs⟩

/-- C5 (amended): at most one of `isInBlockComment`, `isInInlineComment`,
`isInString` is set, at every character step and at every line
boundary; in particular `isInBlockComment` and `isInString` are never
both carried across a line boundary, for any input. -/
theorem c5_at_most_one :
    (∀ lc line ls i, WF cppSpec ls.st →
      WF cppSpec (scanStep cppSpec lc line ls i).out.st) ∧
    (∀ lines, WF cppSpec (scanLines cppSpec initState ⟨0, 0, 0⟩ lines).1) :=
  ⟨fun lc line ls i hwf => scanStep_wf cppSpec lc line ls i hwf,
   fun lines => scanLines_wf cppSpec lines initState ⟨0, 0, 0⟩ (initState_wf cppSpec)⟩

/-- Witness for C5 (amended) at a concrete step. -/
theorem c5_witness :
    WF cppSpec (scanStep cppSpec false ['a']
      ⟨initState, ⟨1, 0, 0⟩, false⟩ 0).out.st :=
  c5_at_most_one.1 false ['a'] ⟨initState, ⟨1, 0, 0⟩, false⟩ 0 (by decide)

/-- Beyond the end of a line the end marker can never match, so a
bounded check suffices for the no-end-marker hypothesis. -/
theorem noEndAux (l : List Char)
    (h : ∀ j < l.length, cppSpec.blockCommentEnd.isPrefixOf (l.drop j) = false) :
    ∀ j, cppSpec.blockCommentEnd.isPrefixOf (l.drop j) = false := by
  intro j
  by_cases hj : j < l.length
  · exact h j hj
  · rw [List.drop_eq_nil_of_le (by omega)]
    decide

/-- C7: a file that ends inside a block comment is accepted silently:
with the block open and no end marker occurring on any remaining line,
the scan completes, counts every remaining line (blank ones included)
as a block-comment line, changes no other counter, and leaves the block
open; concretely a 4-line file whose block opens on line 2 and never
closes yields `TotalLines = 4, InlineComments = 0, BlockComments = 3`. -/
theorem c7_unterminated :
    (∀ st stat L, WF cppSpec st → st.isInBlockComment = true →
      (∀ l ∈ L, ∀ j, cppSpec.blockCommentEnd.isPrefixOf (l.drop j) = false) →
      scanLines cppSpec st stat L =
        (st, { TotalLines := stat.TotalLines + L.length,
               InlineComments := stat.InlineComments,
               BlockComments := stat.BlockComments + L.length })) ∧
    analyzeFile cppSpec
      ["int a;".toList, "/* open".toList, [], "tail".toList] =
      { TotalLines := 4, InlineComments := 0, BlockComments := 3 } :=
  ⟨fun st stat L hwf hb hno => scanLines_noend cppSpec L st stat hwf hb hno,
   by decide⟩

/-- Witness for C7 at a concrete open-block state over two remaining
lines (one of them blank). -/
theorem c7_witness :
    scanLines cppSpec ⟨true, false, false, []⟩ ⟨1, 0, 1⟩
        ["ab".toList, []] =
      (⟨true, false, false, []⟩,
       { TotalLines := 1 + 2, InlineComments := 0, BlockComments := 1 + 2 }) :=
  c7_unterminated.1 ⟨true, false, false, []⟩ ⟨1, 0, 1⟩ ["ab".toList, []]
    (by decide) rfl (fun l hl => noEndAux l (by fin_cases hl <;> decide))

/-- C8: `TotalLines` equals the number of newline-delimited lines,
regardless of their content, for any `LanguageSpec`. -/
theorem c8_total_lines (spec : LanguageSpec) (lines : List (List Char)) :
    (analyzeFile spec lines).TotalLines = lines.length := by
  unfold analyzeFile
  rw [scanLines_total]
  simp

/-- C9: under the built-in C/C++ spec (all markers non-empty) the
character-cursor loop terminates: every iteration either breaks or
strictly increases the cursor, and consequently the loop's value is
independent of the fuel once the fuel covers the remaining line length
(in particular the `line.length + 1` used by `scanLine` suffices). -/
theorem c9_termination :
    (∀ lc line ls i, DelimOk cppSpec ls.st →
      ∀ i' ∈ (scanStep cppSpec lc line ls i).cursorOpt, i < i') ∧
    (∀ lc line ls i f1 f2, DelimOk cppSpec ls.st →
      line.length - i ≤ f1 → line.length - i ≤ f2 →
      scanLoop cppSpec lc line f1 ls i = scanLoop cppSpec lc line f2 ls i) :=
  ⟨fun lc line ls i hd => scanStep_progress lc line ls i hd,
   fun lc line ls i f1 f2 hd h1 h2 =>
     scanLoop_fuel lc line (line.length - i) ls i f1 f2 le_rfl hd h1 h2⟩

/-- Witness for C9: two different sufficient fuels agree on a concrete
line. -/
theorem c9_witness :
    scanLoop cppSpec false ['a', 'b'] 2 ⟨initState, ⟨1, 0, 0⟩, false⟩ 0 =
      scanLoop cppSpec false ['a', 'b'] 7 ⟨initState, ⟨1, 0, 0⟩, false⟩ 0 :=
  c9_termination.2 false ['a', 'b'] ⟨initState, ⟨1, 0, 0⟩, false⟩ 0 2 7
    (fun h => nomatch h) (by decide) (by decide)

/-- C10: the counters are bounded by the line count: per line,
`TotalLines` grows by exactly 1, `InlineComments` by at most 1 and
`BlockComments` by at most 1 (a single line may increment both, as the
concrete line `/* x */ // y` shows), hence for every file
`InlineComments ≤ TotalLines` and `BlockComments ≤ TotalLines`
(both counters are naturals, so `0 ≤` holds throughout). -/
theorem c10_bounds :
    (∀ st stat line,
      (scanLine cppSpec st stat line).2.TotalLines = stat.TotalLines + 1 ∧
      (scanLine cppSpec st stat line).2.InlineComments ≤ stat.InlineComments + 1 ∧
      ((scanLine cppSpec st stat line).2.BlockComments = stat.BlockComments ∨
        (scanLine cppSpec st stat line).2.BlockComments = stat.BlockComments + 1)) ∧
    (∀ lines,
      (analyzeFile cppSpec lines).InlineComments ≤ (analyzeFile cppSpec lines).TotalLines ∧
      (analyzeFile cppSpec lines).BlockComments ≤ (analyzeFile cppSpec lines).TotalLines) ∧
    analyzeFile cppSpec ["/* x */ // y".toList] =
      { TotalLines := 1, InlineComments := 1, BlockComments := 1 } := by
  refine ⟨fun st stat line =>
      ⟨scanLine_total cppSpec st stat line, scanLine_inline_le cppSpec st stat line,
        scanLine_block_le cppSpec st stat line⟩,
    fun lines => ?_, by decide⟩
  unfold analyzeFile
  have h1 := scanLines_inline_le cppSpec lines initState ⟨0, 0, 0⟩
  have h2 := scanLines_block_le cppSpec lines initState ⟨0, 0, 0⟩
  have h3 := scanLines_total cppSpec lines initState ⟨0, 0, 0⟩
  simp only [] at h1 h2 h3
  constructor <;> omega

/-- C6: at a cursor where no construct is open, the construct-start
checks run in source order — string delimiters first (in list order,
first match wins), then block-comment start, then inline-comment
start — and the first match decides the step, with no backtracking:
a string delimiter match opens a string even if a comment marker also
matches; the block-comment start is consulted only when no string
delimiter matched; the inline-comment start only when neither did. -/
theorem c6_precedence (spec : LanguageSpec) (lc : Bool) (line : List Char)
    (ls : LineScan) (i : Nat)
    (hb : ls.st.isInBlockComment = false) (hi : ls.st.isInInlineComment = false)
    (hs : ls.st.isInString = false) :
    (∀ d, spec.stringDelimiter.find? (fun x => x.isPrefixOf (line.drop i)) = some d →
      scanStep spec lc line ls i =
        .cont { ls with st := { ls.st with isInString := true, currentStringDelimiter := d } }
          (i + d.length)) ∧
    (spec.stringDelimiter.find? (fun x => x.isPrefixOf (line.drop i)) = none →
      spec.blockCommentStart.isPrefixOf (line.drop i) = true →
      (scanStep spec lc line ls i).out.st.isInBlockComment = true ∧
      (scanStep spec lc line ls i).out.st.isInString = false ∧
      (scanStep spec lc line ls i).out.stat.InlineComments = ls.stat.InlineComments ∧
      (scanStep spec lc line ls i).cursorOpt = some (i + spec.blockCommentStart.length)) ∧
    (spec.stringDelimiter.find? (fun x => x.isPrefixOf (line.drop i)) = none →
      spec.blockCommentStart.isPrefixOf (line.drop i) = false →
      spec.inlineCommentStart.isPrefixOf (line.drop i) = true →
      scanStep spec lc line ls i =
        .stop { ls with
                  stat := { ls.stat with InlineComments := ls.stat.InlineComments + 1 }
                  st := { ls.st with isInInlineComment := lc } }) := by
  have hsp : stringPhase spec line ls i = none := by
    unfold stringPhase
    simp [hs]
  have hbco : blockCountOnce ls = ls := blockCountOnce_id ls hb
  have hsh : stringHit spec line ls i =
      spec.stringDelimiter.find? (fun x => x.isPrefixOf (line.drop i)) := by
    unfold stringHit
    simp [hb, hi, hs]
  have hstep : scanStep spec lc line ls i = startPhase spec lc line ls i := by
    unfold scanStep
    simp only [hsp]
    rw [hbco]
    rw [if_neg (by simp [hb]), if_neg (by simp [hi])]
  refine ⟨?_, ?_, ?_⟩
  · intro d hd
    rw [hstep]
    unfold startPhase
    rw [hsh, hd]
  · intro hnone hp2
    simp only [hstep]
    unfold startPhase
    simp only [hsh, hnone]
    rw [if_pos (show (spec.blockCommentStart.isPrefixOf (line.drop i)
      && !ls.st.isInString && !ls.st.isInBlockComment && !ls.st.isInInlineComment) = true
      by simp [hp2, hs, hb, hi])]
    split_ifs <;> simp [StepOut.out, StepOut.cursorOpt, hs]
  · intro hnone hp2 hp3
    rw [hstep]
    unfold startPhase
    simp only [hsh, hnone]
    rw [if_neg (by simp [hp2]), if_pos (by simp [hp3, hs, hb])]

/-- A spec with genuinely overlapping prefixes: `/` is a string
delimiter while `//` and `/*` are the comment markers, so all three
checks can match at one cursor. -/
def overlapSpec : LanguageSpec where
  inlineCommentStart := ['/', '/']
  blockCommentStart := ['/', '*']
  blockCommentEnd := ['*', '/']
  lineContinuation := [bslash]
  escapeCharacter := [bslash]
  stringDelimiter := [['/']]

/-- Witness for C6: on `//x` with `/` a string delimiter, string-start
wins over the also-matching inline-comment marker. -/
theorem c6_witness :
    scanStep overlapSpec false ('/' :: '/' :: ['x'])
        ⟨initState, ⟨1, 0, 0⟩, false⟩ 0 =
      .cont ⟨⟨false, false, true, ['/']⟩, ⟨1, 0, 0⟩, false⟩ (0 + 1) :=
  (c6_precedence overlapSpec false ('/' :: '/' :: ['x'])
    ⟨initState, ⟨1, 0, 0⟩, false⟩ 0 rfl rfl rfl).1 ['/'] (by decide)
